import Mathlib

/-!
Verification development for the OCHMO technical-brief scraper
(src/scrapers/ochmo-scraper.py).

The Python module is embedded shallowly:

* the regular expressions of the module are embedded as deterministic
  matchers over `List Char`; each of the four patterns of the module is
  free of genuine backtracking (every optional or repeated piece is
  followed by a literal or class that is disjoint from it), so a
  greedy one-pass matcher computes exactly the match of Python `re`;
* Python character classes are modelled on their ASCII fragment
  (`\d` as `Char.isDigit`, `\s` as the six ASCII whitespace characters,
  `\w` as alphanumeric-or-underscore); case-insensitive matching
  compares `Char.toLower`, which agrees with Python for ASCII;
* the mutable `PdfReport` object is a `ReportState` record and
  `PdfReport.parse` a state transformer on it; the HTTP fetch and the
  PDF first-page text extraction are external collaborators and enter
  as function parameters (`fetch`, `ext`), failure being `none`;
* Python list slicing `[:limit]` with an optional, possibly negative
  bound is `pySliceTo`.
-/

namespace Ochmo

/-- Python regex class `\s` (ASCII fragment): the six ASCII whitespace
characters Python's `re` always accepts. -/
def pyIsSpace (c : Char) : Bool :=
  c = ' ' || c = '\t' || c = '\n' || c = '\r' || c = '\x0b' || c = '\x0c'

/-- Python regex class `\w` (ASCII fragment): alphanumeric or underscore. -/
def pyIsWord (c : Char) : Bool := c.isAlphanum || c = '_'

/-- Strip a case-insensitively matching literal prefix: the pattern is given
in lowercase, the candidate character is lowered before comparison, as
Python `re.IGNORECASE` does on ASCII. Returns the rest on success. -/
def stripCI : List Char → List Char → Option (List Char)
  | [], s => some s
  | _ :: _, [] => none
  | p :: ps, c :: cs => if c.toLower = p then stripCI ps cs else none

/-- A matcher consumes a prefix of the input and reports its length. -/
abbrev Matcher := List Char → Option Nat

/-- Case-insensitive literal piece of a pattern. -/
def mlit (p : List Char) : Matcher := fun s =>
  match stripCI p s with
  | some _ => some p.length
  | none => none

/-- Single-character class piece (`\d`, `\s`, `\w`). -/
def mchar (p : Char → Bool) : Matcher := fun s =>
  match s with
  | c :: _ => if p c then some 1 else none
  | [] => none

/-- Optional single-character class piece (`\s?`, `M?`), greedy. In every
pattern of the module the piece following an optional class is disjoint
from it, so the greedy choice is the unique one. -/
def mopt (p : Char → Bool) : Matcher := fun s =>
  match s with
  | c :: _ => if p c then some 1 else some 0
  | [] => some 0

/-- Star of a character class (`\s*`), greedy maximal run. -/
def mstar (p : Char → Bool) : Matcher := fun s => some (s.takeWhile p).length

/-- Plus of a character class (`\d+`), greedy maximal nonempty run. -/
def mplus (p : Char → Bool) : Matcher := fun s =>
  let n := (s.takeWhile p).length
  if n = 0 then none else some n

/-- Sequencing of pattern pieces. -/
def mseq (p q : Matcher) : Matcher := fun s =>
  match p s with
  | none => none
  | some n =>
    match q (s.drop n) with
    | none => none
    | some m => some (n + m)

def nasaLC : List Char := ['n', 'a', 's', 'a']

def stdLC : List Char := ['s', 't', 'd']

def volumeLC : List Char := ['v', 'o', 'l', 'u', 'm', 'e']

def revLC : List Char := ['r', 'e', 'v']

def hyphenLC : List Char := ['-']

def commaLC : List Char := [',']

def ochmoLC : List Char := ['o', 'c', 'h', 'm', 'o', '-']

def tbLC : List Char := ['t', 'b', '-']

def vOnlyLC : List Char := ['v']

def lbrLC : List Char := ['[']

def rbrLC : List Char := [']']

def pdfLC : List Char := ['.', 'p', 'd', 'f']

def pdfqLC : List Char := ['.', 'p', 'd', 'f', '?']

/-- The optional `M` of `OCHMO-M?TB`, case-insensitive. -/
def isMChar (c : Char) : Bool := c.toLower = 'm'

/-- `PdfReport._parse_ochmo_id`: the pattern `(OCHMO-M?TB-\d+)` with
`re.IGNORECASE`, applied at one position. -/
def matchIdAt : Matcher :=
  mseq (mlit ochmoLC) (mseq (mopt isMChar) (mseq (mlit tbLC) (mplus Char.isDigit)))

/-- `PdfReport._parse_technical_requirements`, first scan: the pattern
`(NASA\s?-\s?STD\s?-\s?\d+\sVolume\s\d,\s?Rev\s\w)` with `re.IGNORECASE`,
applied at one position. Note both hyphens are mandatory literals; only
the whitespace around them is optional. -/
def matchStdAt : Matcher :=
  mseq (mlit nasaLC) (mseq (mopt pyIsSpace) (mseq (mlit hyphenLC) (mseq (mopt pyIsSpace)
    (mseq (mlit stdLC) (mseq (mopt pyIsSpace) (mseq (mlit hyphenLC) (mseq (mopt pyIsSpace)
      (mseq (mplus Char.isDigit) (mseq (mchar pyIsSpace) (mseq (mlit volumeLC)
        (mseq (mchar pyIsSpace) (mseq (mchar Char.isDigit) (mseq (mlit commaLC)
          (mseq (mopt pyIsSpace) (mseq (mlit revLC)
            (mseq (mchar pyIsSpace) (mchar pyIsWord)))))))))))))))))

/-- `PdfReport._parse_technical_requirements`, second scan: the pattern
`\[(V\d\s*\d+)\]` with `re.IGNORECASE`, applied at one position. -/
def matchReqAt : Matcher :=
  mseq (mlit lbrLC) (mseq (mlit vOnlyLC) (mseq (mchar Char.isDigit)
    (mseq (mstar pyIsSpace) (mseq (mplus Char.isDigit) (mlit rbrLC)))))

/-- The scan loop of `re.finditer`, structurally recursive on a fuel
bound; the scan advances by at least one character per step, so any
fuel of at least the input's length never runs out. -/
def findIterF (m : Matcher) : Nat → List Char → List (List Char)
  | _, [] =>
    match m [] with
    | some _ => [[]]
    | none => []
  | 0, _ :: _ => []
  | fuel + 1, c :: rest =>
    match m (c :: rest) with
    | none => findIterF m fuel rest
    | some 0 => [] :: findIterF m fuel rest
    | some (n + 1) => ((c :: rest).take (n + 1)) :: findIterF m fuel (rest.drop n)

/-- `re.finditer`: non-overlapping leftmost matches, the scan resuming at
the end of each match (or one further for an empty match, which none of
the patterns here can produce). Returns the matched texts in order. -/
def findIter (m : Matcher) (s : List Char) : List (List Char) := findIterF m s.length s

/-- `re.search`: the match at the leftmost position where the pattern
matches, as matched text. -/
def searchFrom (m : Matcher) : List Char → Option (List Char)
  | [] =>
    match m [] with
    | some _ => some []
    | none => none
  | c :: rest =>
    match m (c :: rest) with
    | some n => some ((c :: rest).take n)
    | none => searchFrom m rest

/-- Python `str.replace(" -", "-")`: replace every non-overlapping
occurrence, left to right. -/
def collapseSpHy : List Char → List Char
  | ' ' :: '-' :: rest => '-' :: collapseSpHy rest
  | c :: rest => c :: collapseSpHy rest
  | [] => []

/-- The standards scan of `_parse_technical_requirements`: every
non-overlapping match of the standards pattern, each normalized by
`.replace(" -", "-")`, appended in order. -/
def pdfStandardsL (s : List Char) : List String :=
  (findIter matchStdAt s).map (fun t => String.mk (collapseSpHy t))

/-- The requirement scan of `_parse_technical_requirements`: every
non-overlapping match of the bracketed pattern, group 1 (the match with
its surrounding brackets stripped), appended in order. -/
def pdfReqsL (s : List Char) : List String :=
  (findIter matchReqAt s).map (fun t => String.mk ((t.drop 1).dropLast))

def pdfStandards (txt : String) : List String := pdfStandardsL txt.data

def pdfReqs (txt : String) : List String := pdfReqsL txt.data

/-- `PdfReport._parse_ochmo_id`: `re.search` of the identifier pattern over
the URL, group 1 (the whole match) uppercased (`str.upper`, ASCII). -/
def parseOchmoId (url : String) : Option String :=
  (searchFrom matchIdAt url.data).map (fun t => String.mk (t.map Char.toUpper))

/-- The lazy tail `(.*?)\.pdf` of the title pattern: the shortest run of
non-newline characters (`.` does not cross a newline) up to the first
case-insensitive `.pdf`, returned as the captured group. -/
def lazyUntilPdf : List Char → List Char → Option (List Char)
  | _, [] => none
  | acc, c :: r =>
    if (stripCI pdfLC (c :: r)).isSome then some acc.reverse
    else if c = '\n' then none
    else lazyUntilPdf (c :: acc) r

/-- The `tb-\d+-(.*?)\.pdf` tail of the title pattern: `tb-` then a maximal
nonempty digit run followed by a mandatory hyphen, then the lazy slug. -/
def tbTitleRest (s : List Char) : Option (List Char) :=
  match stripCI tbLC s with
  | none => none
  | some r =>
    let ds := r.takeWhile Char.isDigit
    if ds.isEmpty then none
    else
      match r.drop ds.length with
      | '-' :: r2 => lazyUntilPdf [] r2
      | _ => none

/-- `PdfReport._parse_title`: the pattern `ochmo-m?tb-\d+-(.*?)\.pdf` with
`re.IGNORECASE` applied at one position, returning group 1. The `m?` is
decided by the next character: an `m` must be consumed (falling back to
the empty branch would put `tb-` against that `m` and fail). -/
def matchTitleAt (s : List Char) : Option (List Char) :=
  match stripCI ochmoLC s with
  | none => none
  | some r1 =>
    match r1 with
    | c :: r2 => if isMChar c then tbTitleRest r2 else tbTitleRest r1
    | [] => none

/-- `re.search` for a group-returning matcher. -/
def searchGroup (m : List Char → Option (List Char)) : List Char → Option (List Char)
  | [] => m []
  | c :: rest =>
    match m (c :: rest) with
    | some g => some g
    | none => searchGroup m rest

/-- Python `str.title()` on the ASCII fragment: a letter is uppercased when
the previous character is not a letter and lowercased otherwise; other
characters pass through and end the current word. -/
def pyTitleGo : Bool → List Char → List Char
  | _, [] => []
  | prevAlpha, c :: r =>
    if c.isAlpha then
      (if prevAlpha then c.toLower else c.toUpper) :: pyTitleGo true r
    else c :: pyTitleGo false r

/-- The title text built by `_parse_title` from the captured slug:
`.replace("-", " ").title()`. -/
def slugToTitle (g : List Char) : String :=
  String.mk (pyTitleGo false (g.map (fun c => if c = '-' then ' ' else c)))

/-- The title `re.search` over the whole URL, group 1 transformed. -/
def titleFromUrl (url : String) : Option String :=
  (searchGroup matchTitleAt url.data).map slugToTitle

/-- Python truthiness of an optional string (`not self.ochmo_id`):
false for `None` and for the empty string. -/
def pyTruthy : Option String → Bool
  | none => false
  | some s => !s.isEmpty

/-- `PdfReport._parse_title` as the dependent derivation the spec calls
`deriveTitle`: an early return leaves the title absent whenever the
already-derived identifier is falsy; otherwise the title pattern is
searched and its absence stored as `None`. -/
def deriveTitle (url : String) (idv : Option String) : Option String :=
  if pyTruthy idv then titleFromUrl url else none

/-- The `.*\.pdf\?` tail of the discovery pattern: scan forward on the
current line for a case-insensitive `.pdf?`. -/
def hasPdfQ : List Char → Bool
  | [] => false
  | c :: r =>
    if (stripCI pdfqLC (c :: r)).isSome then true
    else if c = '\n' then false
    else hasPdfQ r

/-- The `tb-\d+` piece of the discovery pattern, returning the rest after a
maximal digit run. -/
def tbDigitsRest (s : List Char) : Option (List Char) :=
  match stripCI tbLC s with
  | none => none
  | some r =>
    let ds := r.takeWhile Char.isDigit
    if ds.isEmpty then none else some (r.drop ds.length)

/-- `NasaScraper._list_pdf_links`: the pattern `ochmo-m?tb-\d+.*\.pdf\?`
with `re.IGNORECASE`, applied at one position (used only as a test). -/
def matchLinkAt (s : List Char) : Bool :=
  match stripCI ochmoLC s with
  | none => false
  | some r1 =>
    match r1 with
    | c :: r2 =>
      if isMChar c then
        match tbDigitsRest r2 with
        | some r3 => hasPdfQ r3
        | none => false
      else
        match tbDigitsRest r1 with
        | some r3 => hasPdfQ r3
        | none => false
    | [] => false

/-- `re.search` of the discovery pattern as the boolean test
`_list_pdf_links` uses. -/
def linkSearchB : List Char → Bool
  | [] => false
  | c :: r => matchLinkAt (c :: r) || linkSearchB r

/-- Whether `_list_pdf_links` accepts a hyperlink target. -/
def linkAccepts (href : String) : Bool := linkSearchB href.data

/-! ## The per-document pipeline (`PdfReport`) -/

/-- The mutable state of a `PdfReport` instance: the URL fixed at
construction, the four metadata attributes, and the cached bytes of
`_fetch_pdf_content` (`None` until fetched or on fetch failure). Bytes
are modelled as `List Nat`. -/
structure ReportState where
  url : String
  ochmo_id : Option String
  title : Option String
  technical_requirements_docs : List String
  technical_requirements : List String
  pdf_bytes : Option (List Nat)
deriving Repr, DecidableEq

/-- `PdfReport.__init__`. -/
def initReport (url : String) : ReportState :=
  { url := url, ochmo_id := none, title := none,
    technical_requirements_docs := [], technical_requirements := [],
    pdf_bytes := none }

/-- `PdfReport._parse_ochmo_id` run on the state. -/
def stepId (r : ReportState) : ReportState :=
  { r with ochmo_id := parseOchmoId r.url }

/-- `PdfReport._parse_title` run on the state: an early return when the
identifier is falsy, otherwise the title attribute is overwritten with
the search result (`None` on pattern mismatch). -/
def stepTitle (r : ReportState) : ReportState :=
  if pyTruthy r.ochmo_id then { r with title := titleFromUrl r.url } else r

/-- `PdfReport._fetch_pdf_content`: fetch only when no bytes are cached;
a `RetrievalError` leaves the cache `None`. -/
def fetchContent (fetch : String → Option (List Nat)) (r : ReportState) : ReportState :=
  match r.pdf_bytes with
  | none => { r with pdf_bytes := fetch r.url }
  | some _ => r

/-- `PdfReport._parse_technical_requirements`: both scans append to the
existing attribute lists. -/
def stepRefs (txt : String) (r : ReportState) : ReportState :=
  { r with
    technical_requirements_docs := r.technical_requirements_docs ++ pdfStandardsL txt.data,
    technical_requirements := r.technical_requirements ++ pdfReqsL txt.data }

/-- `PdfReport.parse`: identifier, then title, then fetch; a missing or
empty byte string returns early; `ext` models `PdfReader` plus
`pages[0].extract_text()`, `none` covering a parse exception or an
empty page list. -/
def PdfReport.parse (fetch : String → Option (List Nat)) (ext : List Nat → Option String)
    (r : ReportState) : ReportState :=
  let r1 := stepTitle (stepId r)
  let r2 := fetchContent fetch r1
  match r2.pdf_bytes with
  | none => r2
  | some b =>
    if b.isEmpty then r2
    else
      match ext b with
      | none => r2
      | some txt => stepRefs txt r2

/-! ## The collection scraper (`NasaScraper`) -/

/-- Python list slicing `xs[:limit]` with `limit : int | None`, including
the negative-index meaning of a negative bound. -/
def pySliceTo (limit : Option Int) (xs : List α) : List α :=
  match limit with
  | none => xs
  | some k => if 0 ≤ k then xs.take k.toNat else xs.take (xs.length - (-k).toNat)

/-- The accumulation loop of `NasaScraper.scrape_reports`: parse each URL
into a fresh report and append it when its identifier is truthy. -/
def scrapeLoop (fetch : String → Option (List Nat)) (ext : List Nat → Option String) :
    List String → List ReportState → List ReportState
  | [], acc => acc
  | url :: rest, acc =>
    let report := PdfReport.parse fetch ext (initReport url)
    scrapeLoop fetch ext rest
      (if pyTruthy report.ochmo_id then acc ++ [report] else acc)

/-- `NasaScraper.scrape_reports`, parameterized by the discovered URL list
(`_list_pdf_links` is HTTP plus HTML glue) and the two collaborators. -/
def scrape_reports (fetch : String → Option (List Nat)) (ext : List Nat → Option String)
    (discovered : List String) (limit : Option Int) : List ReportState :=
  scrapeLoop fetch ext (pySliceTo limit discovered) []

/-! ## Discovery-time URL resolution

`_list_pdf_links` resolves every accepted `href` with
`urllib.parse.urljoin(self.base_url, href)`. `urljoin` is library code
outside this repository; the spec (section 4.2, section 6) only says
relative links are resolved to absolute URLs against the listing page's
URL. It is modelled here, for `http(s)` bases and hrefs that carry no
scheme or network location, after RFC 3986 reference resolution in the
form CPython implements it: split off the query at the first question
mark, merge with the base directory, drop empty interior segments of a
relative reference, and resolve the dot segments. -/

/-- Python `str.split(sep)` for a single-character separator. -/
def splitOnChar (sep : Char) : List Char → List (List Char)
  | [] => [[]]
  | c :: r =>
    let res := splitOnChar sep r
    if c = sep then [] :: res
    else
      match res with
      | h :: t => (c :: h) :: t
      | [] => [[c]]

/-- Split at the first question mark into path and query
(`urllib.parse.urlparse` on a relative reference without fragment). -/
def splitQuery : List Char → List Char × List Char
  | [] => ([], [])
  | c :: r =>
    if c = '?' then ([], r)
    else
      let p := splitQuery r
      (c :: p.1, p.2)

/-- Locate the `://` separating the scheme from the rest of the base URL. -/
def splitScheme : List Char → Option (List Char × List Char)
  | [] => none
  | ':' :: '/' :: '/' :: r => some ([], r)
  | c :: r => (splitScheme r).map (fun p => (c :: p.1, p.2))

/-- CPython's `segments[1:-1] = filter(None, segments[1:-1])` on the merged
segment list of a relative reference. -/
def midFilter : List (List Char) → List (List Char)
  | [] => []
  | [x] => [x]
  | h :: t => h :: ((t.dropLast.filter (fun s => !s.isEmpty)) ++ t.drop (t.length - 1))

/-- CPython's dot-segment resolution loop: `..` pops the accumulator
(silently on empty), `.` is skipped, other segments are appended. -/
def resolveSegs : List (List Char) → List (List Char) → List (List Char)
  | acc, [] => acc
  | acc, seg :: rest =>
    if seg = ['.', '.'] then resolveSegs acc.dropLast rest
    else if seg = ['.'] then resolveSegs acc rest
    else resolveSegs (acc ++ [seg]) rest

/-- Join path segments with `/`. -/
def joinSegs : List (List Char) → List Char
  | [] => []
  | [x] => x
  | x :: r => x ++ '/' :: joinSegs r

/-- Modelled from the spec: the relative-link resolution of
`discoverDocumentUrls` (spec section 4.2 and section 6), performed in the
code by `urllib.parse.urljoin`, whose implementation is not part of this
repository. Modelled for an absolute `http(s)` base and an href with
neither scheme nor network location, per RFC 3986 as CPython implements
it. -/
def urljoinModel (base href : String) : String :=
  match splitScheme base.data with
  | none => href
  | some (scheme, rest) =>
    let netloc := rest.takeWhile (fun c => c ≠ '/')
    let bpath := rest.drop netloc.length
    let pq := splitQuery href.data
    let hpath := pq.1
    let query := pq.2
    let bparts0 := splitOnChar '/' bpath
    let bparts := if bparts0.getLast? = some [] then bparts0 else bparts0.dropLast
    let segs :=
      match hpath with
      | '/' :: _ => splitOnChar '/' hpath
      | _ => midFilter (bparts ++ splitOnChar '/' hpath)
    let resolved := resolveSegs [] segs
    let resolved2 :=
      if segs.getLast? = some ['.'] ∨ segs.getLast? = some ['.', '.'] then resolved ++ [[]]
      else resolved
    let pathC := joinSegs resolved2
    let pathC2 := if pathC.isEmpty then ['/'] else pathC
    String.mk (scheme ++ ':' :: '/' :: '/' :: netloc ++ pathC2 ++
      (if query.isEmpty then [] else '?' :: query))

/-- The discovery step of `_list_pdf_links` on an already-extracted list of
hyperlink targets: keep those the pattern accepts, resolved against the
base URL. -/
def discoverModel (base : String) (hrefs : List String) : List String :=
  (hrefs.filter linkAccepts).map (urljoinModel base)

/-! ## Declarative shapes of the patterns

The shape predicates below restate, as plain decompositions into
concatenated pieces, which strings the identifier pattern and the
standards pattern denote. They are the yardstick against which the
executable matchers are proved sound and complete. -/

/-- Case-insensitive equality with a lowercase word. -/
def lowersTo (a w : List Char) : Prop := a.map Char.toLower = w

/-- An optional single whitespace (`\s?`). -/
def optSp (w : List Char) : Prop := w = [] ∨ ∃ c, w = [c] ∧ pyIsSpace c = true

/-- Leading-character guard: the run in front of `r` cannot be extended
into `r`. -/
def headNot (p : Char → Bool) : List Char → Prop
  | [] => True
  | c :: _ => p c = false

/-- The pieces of a string of the identifier shape `OCHMO-M?TB-\d+`
(case-insensitive). -/
structure IdParts where
  a : List Char
  m : List Char
  b : List Char
  ds : List Char

def IdParts.ok (p : IdParts) : Prop :=
  lowersTo p.a ochmoLC ∧ (p.m = [] ∨ ∃ c, p.m = [c] ∧ isMChar c = true) ∧
  lowersTo p.b tbLC ∧ p.ds ≠ [] ∧ ∀ c ∈ p.ds, c.isDigit = true

def IdParts.flat (p : IdParts) : List Char := p.a ++ p.m ++ p.b ++ p.ds

/-- A string of the identifier shape: `OCHMO-`, an optional `M`, `TB-`,
then a nonempty digit run, all case-insensitive. -/
def IdShape (t : List Char) : Prop := ∃ p : IdParts, p.ok ∧ t = p.flat

/-- The pieces of a string of the standards-citation shape
`NASA\s?-\s?STD\s?-\s?\d+\sVolume\s\d,\s?Rev\s\w` (case-insensitive).
Both hyphens are mandatory. -/
structure StdParts where
  a1 : List Char
  w1 : List Char
  hy1 : List Char
  w2 : List Char
  a2 : List Char
  w3 : List Char
  hy2 : List Char
  w4 : List Char
  ds : List Char
  s1 : Char
  a3 : List Char
  s2 : Char
  d5 : Char
  cm : List Char
  w5 : List Char
  a4 : List Char
  s3 : Char
  wc : Char

def StdParts.ok (p : StdParts) : Prop :=
  lowersTo p.a1 nasaLC ∧ optSp p.w1 ∧ lowersTo p.hy1 hyphenLC ∧ optSp p.w2 ∧
  lowersTo p.a2 stdLC ∧ optSp p.w3 ∧ lowersTo p.hy2 hyphenLC ∧ optSp p.w4 ∧
  p.ds ≠ [] ∧ (∀ c ∈ p.ds, c.isDigit = true) ∧
  pyIsSpace p.s1 = true ∧ lowersTo p.a3 volumeLC ∧ pyIsSpace p.s2 = true ∧
  p.d5.isDigit = true ∧ lowersTo p.cm commaLC ∧ optSp p.w5 ∧
  lowersTo p.a4 revLC ∧ pyIsSpace p.s3 = true ∧ pyIsWord p.wc = true

def StdParts.flat (p : StdParts) : List Char :=
  p.a1 ++ p.w1 ++ p.hy1 ++ p.w2 ++ p.a2 ++ p.w3 ++ p.hy2 ++ p.w4 ++
    p.ds ++ [p.s1] ++ p.a3 ++ [p.s2] ++ [p.d5] ++ p.cm ++ p.w5 ++ p.a4 ++
    [p.s3] ++ [p.wc]

/-- A string of the standards-citation shape: `NASA`, optional whitespace,
a mandatory hyphen, optional whitespace, `STD`, optional whitespace, a
mandatory hyphen, optional whitespace, digits, one whitespace, `Volume`,
one whitespace, one digit, a comma, optional whitespace, `Rev`, one
whitespace and one word character, the words case-insensitive. -/
def StdShape (t : List Char) : Prop := ∃ p : StdParts, p.ok ∧ t = p.flat

/-! ## Soundness and completeness of the matcher pieces -/

theorem stripCI_sound : ∀ (p s r : List Char), stripCI p s = some r →
    ∃ a, s = a ++ r ∧ lowersTo a p := by
  intro p
  induction p with
  | nil =>
    intro s r h
    simp only [stripCI, Option.some.injEq] at h
    exact ⟨[], by simp [h, lowersTo]⟩
  | cons x xs ih =>
    intro s r h
    cases s with
    | nil => simp [stripCI] at h
    | cons c cs =>
      by_cases hc : c.toLower = x
      · simp only [stripCI, hc, if_pos] at h
        obtain ⟨a, rfl, ha⟩ := ih cs r h
        exact ⟨c :: a, rfl, by simpa [lowersTo, hc] using ha⟩
      · simp [stripCI, hc] at h

theorem stripCI_complete : ∀ (a p r : List Char), lowersTo a p →
    stripCI p (a ++ r) = some r := by
  intro a
  induction a with
  | nil =>
    intro p r h
    simp only [lowersTo, List.map_nil] at h
    subst h
    simp [stripCI]
  | cons c cs ih =>
    intro p r h
    simp only [lowersTo, List.map_cons] at h
    subst h
    simpa [stripCI] using ih (cs.map Char.toLower) r rfl

theorem lowersTo_length {a w : List Char} (h : lowersTo a w) : a.length = w.length := by
  simpa [lowersTo] using congrArg List.length h

theorem lowersTo_cons {a : List Char} {x : Char} {xs : List Char}
    (h : lowersTo a (x :: xs)) : ∃ c t, a = c :: t ∧ c.toLower = x ∧ lowersTo t xs := by
  cases a with
  | nil => simp [lowersTo] at h
  | cons c t =>
    simp only [lowersTo, List.map_cons, List.cons.injEq] at h
    exact ⟨c, t, rfl, h.1, h.2⟩

theorem mlit_parts {p s : List Char} {n : Nat} (h : mlit p s = some n) :
    ∃ a r, s = a ++ r ∧ n = a.length ∧ lowersTo a p := by
  unfold mlit at h
  cases hs : stripCI p s with
  | none => rw [hs] at h; exact absurd h (by simp)
  | some r =>
    rw [hs] at h
    injection h with h
    obtain ⟨a, rfl, ha⟩ := stripCI_sound p _ r hs
    exact ⟨a, r, rfl, by rw [← h, lowersTo_length ha], ha⟩

theorem mlit_compl {a p : List Char} (r : List Char) (h : lowersTo a p) :
    mlit p (a ++ r) = some a.length := by
  unfold mlit
  rw [stripCI_complete a p r h, lowersTo_length h]

theorem mchar_parts {p : Char → Bool} {s : List Char} {n : Nat}
    (h : mchar p s = some n) : ∃ c r, s = c :: r ∧ n = 1 ∧ p c = true := by
  cases s with
  | nil => simp [mchar] at h
  | cons c r =>
    by_cases hc : p c
    · exact ⟨c, r, rfl, by simpa [mchar, hc] using h.symm, hc⟩
    · simp [mchar, hc] at h

theorem mchar_compl {p : Char → Bool} {c : Char} (r : List Char) (h : p c = true) :
    mchar p (c :: r) = some 1 := by simp [mchar, h]

theorem mopt_parts {p : Char → Bool} {s : List Char} {n : Nat}
    (h : mopt p s = some n) : n = 0 ∨ (n = 1 ∧ ∃ c r, s = c :: r ∧ p c = true) := by
  cases s with
  | nil => exact Or.inl (by simpa [mopt] using h.symm)
  | cons c r =>
    by_cases hc : p c
    · exact Or.inr ⟨by simpa [mopt, hc] using h.symm, c, r, rfl, hc⟩
    · exact Or.inl (by simpa [mopt, hc] using h.symm)

theorem mopt_compl1 {p : Char → Bool} {c : Char} (r : List Char) (h : p c = true) :
    mopt p (c :: r) = some 1 := by simp [mopt, h]

theorem mopt_compl0 {p : Char → Bool} {c : Char} (r : List Char) (h : p c = false) :
    mopt p (c :: r) = some 0 := by simp [mopt, h]

theorem headNot_dropWhile (p : Char → Bool) : ∀ s : List Char, headNot p (s.dropWhile p) := by
  intro s
  induction s with
  | nil => trivial
  | cons c r ih =>
    by_cases hc : p c
    · simpa [List.dropWhile_cons, hc] using ih
    · simp only [List.dropWhile_cons, hc, if_false]
      simpa [headNot] using hc

theorem mem_takeWhile_sat (p : Char → Bool) : ∀ s : List Char, ∀ c ∈ s.takeWhile p, p c = true := by
  intro s
  induction s with
  | nil => simp
  | cons c r ih =>
    by_cases hc : p c
    · intro x hx
      rw [List.takeWhile_cons, if_pos hc] at hx
      simp only [List.mem_cons] at hx
      rcases hx with rfl | hx
      · exact hc
      · exact ih x hx
    · intro x hx
      rw [List.takeWhile_cons, if_neg hc] at hx
      simp at hx

theorem takeWhile_append_headNot {p : Char → Bool} :
    ∀ {a r : List Char}, (∀ c ∈ a, p c = true) → headNot p r →
      (a ++ r).takeWhile p = a := by
  intro a
  induction a with
  | nil =>
    intro r _ hr
    cases r with
    | nil => rfl
    | cons c t =>
      have hc : p c = false := hr
      simp [List.takeWhile_cons, hc]
  | cons c t ih =>
    intro r ha hr
    have hc : p c = true := ha c (by simp)
    rw [List.cons_append, List.takeWhile_cons, if_pos hc,
      ih (fun x hx => ha x (by simp [hx])) hr]

theorem length_le_takeWhile_prefix {p : Char → Bool} :
    ∀ {a r : List Char}, (∀ c ∈ a, p c = true) →
      a.length ≤ ((a ++ r).takeWhile p).length := by
  intro a
  induction a with
  | nil => intro r _; simp
  | cons c t ih =>
    intro r ha
    have hc : p c = true := ha c (by simp)
    rw [List.cons_append, List.takeWhile_cons, if_pos hc]
    simpa using ih (fun x hx => ha x (by simp [hx]))

theorem mplus_parts {p : Char → Bool} {s : List Char} {n : Nat}
    (h : mplus p s = some n) :
    ∃ a r, s = a ++ r ∧ n = a.length ∧ a ≠ [] ∧ (∀ c ∈ a, p c = true) ∧ headNot p r := by
  unfold mplus at h
  by_cases h0 : (s.takeWhile p).length = 0
  · simp [h0] at h
  · refine ⟨s.takeWhile p, s.dropWhile p, (List.takeWhile_append_dropWhile p s).symm,
      by simpa [h0] using h.symm, ?_, mem_takeWhile_sat p s, headNot_dropWhile p s⟩
    intro hnil
    exact h0 (by simp [hnil])

theorem mplus_compl {p : Char → Bool} {a r : List Char} (hne : a ≠ [])
    (ha : ∀ c ∈ a, p c = true) (hr : headNot p r) :
    mplus p (a ++ r) = some a.length := by
  unfold mplus
  rw [takeWhile_append_headNot ha hr]
  simp [List.length_eq_zero, hne]

theorem mstar_parts {p : Char → Bool} {s : List Char} {n : Nat}
    (h : mstar p s = some n) :
    ∃ a r, s = a ++ r ∧ n = a.length ∧ (∀ c ∈ a, p c = true) ∧ headNot p r := by
  unfold mstar at h
  exact ⟨s.takeWhile p, s.dropWhile p, (List.takeWhile_append_dropWhile p s).symm,
    by simpa using h.symm, mem_takeWhile_sat p s, headNot_dropWhile p s⟩

theorem mstar_compl {p : Char → Bool} {a r : List Char}
    (ha : ∀ c ∈ a, p c = true) (hr : headNot p r) :
    mstar p (a ++ r) = some a.length := by
  unfold mstar
  rw [takeWhile_append_headNot ha hr]

theorem mseq_parts {p q : Matcher} {s : List Char} {k : Nat}
    (h : mseq p q s = some k) :
    ∃ n m, p s = some n ∧ q (s.drop n) = some m ∧ k = n + m := by
  cases hp : p s with
  | none => unfold mseq at h; rw [hp] at h; simp at h
  | some n =>
    cases hq : q (s.drop n) with
    | none => unfold mseq at h; rw [hp] at h; simp [hq] at h
    | some m =>
      unfold mseq at h
      rw [hp] at h
      simp only [hq] at h
      exact ⟨n, m, rfl, hq, by simpa using h.symm⟩

theorem mseq_compl {p q : Matcher} {s : List Char} {n m : Nat}
    (hp : p s = some n) (hq : q (s.drop n) = some m) :
    mseq p q s = some (n + m) := by
  unfold mseq
  rw [hp]
  simp only [hq]

/-! ## Character facts -/

theorem pyIsSpace_toLower_self {c : Char} (h : pyIsSpace c = true) : c.toLower = c := by
  simp only [pyIsSpace, Bool.or_eq_true, decide_eq_true_eq] at h
  rcases h with ((((h | h) | h) | h) | h) | h <;> subst h <;> decide

theorem space_not_of_toLower {c x : Char} (hx : c.toLower = x)
    (hxs : pyIsSpace x = false) : pyIsSpace c = false := by
  cases hsp : pyIsSpace c with
  | false => rfl
  | true =>
    have hcx : c = x := by rw [← hx, pyIsSpace_toLower_self hsp]
    rw [hcx] at hsp
    rw [hsp] at hxs
    exact absurd hxs (by simp)

theorem space_not_digit {c : Char} (h : pyIsSpace c = true) : c.isDigit = false := by
  simp only [pyIsSpace, Bool.or_eq_true, decide_eq_true_eq] at h
  rcases h with ((((h | h) | h) | h) | h) | h <;> subst h <;> decide

theorem digit_not_space {c : Char} (h : c.isDigit = true) : pyIsSpace c = false := by
  cases hsp : pyIsSpace c with
  | false => rfl
  | true => rw [space_not_digit hsp] at h; exact absurd h (by simp)

theorem isM_false_of {c x : Char} (hx : c.toLower = x) (hne : x ≠ 'm') :
    isMChar c = false := by
  simp [isMChar, hx, hne]

/-! ## The identifier matcher against the identifier shape -/

theorem matchIdAt_parts {s : List Char} {n : Nat} (h : matchIdAt s = some n) :
    ∃ (p : IdParts) (r : List Char),
      p.ok ∧ s = p.flat ++ r ∧ n = p.flat.length ∧ headNot Char.isDigit r := by
  unfold matchIdAt at h
  obtain ⟨n1, m1, h1, h2, rfl⟩ := mseq_parts h
  obtain ⟨a, r1, rfl, rfl, ha⟩ := mlit_parts h1
  rw [List.drop_left] at h2
  obtain ⟨n2, m2, h3, h4, rfl⟩ := mseq_parts h2
  rcases mopt_parts h3 with rfl | ⟨rfl, c, r2, rfl, hc⟩
  · rw [List.drop_zero] at h4
    obtain ⟨n3, m3, h5, h6, rfl⟩ := mseq_parts h4
    obtain ⟨b, r3, rfl, rfl, hb⟩ := mlit_parts h5
    rw [List.drop_left] at h6
    obtain ⟨ds, r4, rfl, rfl, hne, hds, hhd⟩ := mplus_parts h6
    refine ⟨⟨a, [], b, ds⟩, r4, ⟨ha, Or.inl rfl, hb, hne, hds⟩, ?_, ?_, hhd⟩
    · simp [IdParts.flat]
    · simp [IdParts.flat]
  · rw [List.drop_one] at h4
    obtain ⟨n3, m3, h5, h6, rfl⟩ := mseq_parts h4
    simp only [List.tail_cons] at h6 h5
    obtain ⟨b, r3, hr2, rfl, hb⟩ := mlit_parts h5
    subst hr2
    rw [List.drop_left] at h6
    obtain ⟨ds, r4, rfl, rfl, hne, hds, hhd⟩ := mplus_parts h6
    refine ⟨⟨a, [c], b, ds⟩, r4, ⟨ha, Or.inr ⟨c, rfl, hc⟩, hb, hne, hds⟩, ?_, ?_, hhd⟩
    · simp [IdParts.flat]
    · simp [IdParts.flat]
      omega

theorem matchIdAt_compl {p : IdParts} (hok : p.ok) (r : List Char) :
    ∃ n, matchIdAt (p.flat ++ r) = some n ∧ p.flat.length ≤ n := by
  obtain ⟨ha, hm, hb, hne, hds⟩ := hok
  obtain ⟨bc, bt, hbeq, hbc, hbtl⟩ := lowersTo_cons hb
  have hdig : ∃ n4, mplus Char.isDigit (p.ds ++ r) = some n4 ∧ p.ds.length ≤ n4 := by
    refine ⟨((p.ds ++ r).takeWhile Char.isDigit).length, ?_, length_le_takeWhile_prefix hds⟩
    unfold mplus
    have hpos : p.ds.length ≤ ((p.ds ++ r).takeWhile Char.isDigit).length :=
      length_le_takeWhile_prefix hds
    have hlen : p.ds.length ≠ 0 := by simpa [List.length_eq_zero] using hne
    have h0 : (List.takeWhile Char.isDigit (p.ds ++ r)).length ≠ 0 := by omega
    simp [h0]
  obtain ⟨n4, h4, hle4⟩ := hdig
  have h3 : mlit tbLC (p.b ++ (p.ds ++ r)) = some p.b.length := mlit_compl _ hb
  have h34 : mseq (mlit tbLC) (mplus Char.isDigit) (p.b ++ (p.ds ++ r)) =
      some (p.b.length + n4) := mseq_compl h3 (by rw [List.drop_left]; exact h4)
  rcases hm with hm0 | ⟨c, hm1, hc⟩
  · have h2 : mopt isMChar (p.b ++ (p.ds ++ r)) = some 0 := by
      rw [hbeq]
      exact mopt_compl0 _ (isM_false_of hbc (by decide))
    have h234 : mseq (mopt isMChar) (mseq (mlit tbLC) (mplus Char.isDigit))
        (p.b ++ (p.ds ++ r)) = some (0 + (p.b.length + n4)) :=
      mseq_compl h2 (by rw [List.drop_zero]; exact h34)
    have h1 : mlit ochmoLC (p.a ++ (p.b ++ (p.ds ++ r))) = some p.a.length :=
      mlit_compl _ ha
    have hfin : matchIdAt (p.a ++ (p.b ++ (p.ds ++ r))) =
        some (p.a.length + (0 + (p.b.length + n4))) :=
      mseq_compl h1 (by rw [List.drop_left]; exact h234)
    have heq : p.flat ++ r = p.a ++ (p.b ++ (p.ds ++ r)) := by
      simp [IdParts.flat, hm0, List.append_assoc]
    refine ⟨p.a.length + (0 + (p.b.length + n4)), by rw [heq]; exact hfin, ?_⟩
    simp [IdParts.flat, hm0, List.length_append]
    omega
  · have h2 : mopt isMChar (c :: (p.b ++ (p.ds ++ r))) = some 1 :=
      mopt_compl1 _ hc
    have h234 : mseq (mopt isMChar) (mseq (mlit tbLC) (mplus Char.isDigit))
        (c :: (p.b ++ (p.ds ++ r))) = some (1 + (p.b.length + n4)) :=
      mseq_compl h2 (by rw [List.drop_one, List.tail_cons]; exact h34)
    have h1 : mlit ochmoLC (p.a ++ (c :: (p.b ++ (p.ds ++ r)))) = some p.a.length :=
      mlit_compl _ ha
    have hfin : matchIdAt (p.a ++ (c :: (p.b ++ (p.ds ++ r)))) =
        some (p.a.length + (1 + (p.b.length + n4))) :=
      mseq_compl h1 (by rw [List.drop_left]; exact h234)
    have heq : p.flat ++ r = p.a ++ (c :: (p.b ++ (p.ds ++ r))) := by
      simp [IdParts.flat, hm1, List.append_assoc]
    refine ⟨p.a.length + (1 + (p.b.length + n4)), by rw [heq]; exact hfin, ?_⟩
    simp [IdParts.flat, hm1, List.length_append]
    omega

/-! ## `re.search` lemmas -/

theorem searchFrom_none {m : Matcher} : ∀ {s : List Char}, searchFrom m s = none →
    ∀ i, m (s.drop i) = none := by
  intro s
  induction s with
  | nil =>
    intro h i
    unfold searchFrom at h
    cases hm : m [] with
    | some t => rw [hm] at h; exact absurd h (by simp)
    | none => simpa using hm
  | cons c rest ih =>
    intro h i
    unfold searchFrom at h
    cases hm : m (c :: rest) with
    | some t => rw [hm] at h; exact absurd h (by simp)
    | none =>
      rw [hm] at h
      cases i with
      | zero => simpa using hm
      | succ j => simpa using ih h j

theorem searchFrom_some {m : Matcher} : ∀ {s t : List Char}, searchFrom m s = some t →
    ∃ i n, m (s.drop i) = some n ∧ t = (s.drop i).take n ∧
      ∀ j, j < i → m (s.drop j) = none := by
  intro s
  induction s with
  | nil =>
    intro t h
    unfold searchFrom at h
    cases hm : m [] with
    | some n =>
      rw [hm] at h
      refine ⟨0, n, by simpa using hm, ?_, by omega⟩
      have ht : t = [] := by simpa using h.symm
      simp [ht]
    | none => rw [hm] at h; exact absurd h (by simp)
  | cons c rest ih =>
    intro t h
    unfold searchFrom at h
    cases hm : m (c :: rest) with
    | some n =>
      rw [hm] at h
      exact ⟨0, n, by simpa using hm, by simpa using h.symm, by omega⟩
    | none =>
      rw [hm] at h
      obtain ⟨i, n, h1, h2, h3⟩ := ih h
      refine ⟨i + 1, n, by simpa using h1, by simpa using h2, ?_⟩
      intro j hj
      cases j with
      | zero => simpa using hm
      | succ k => simpa using h3 k (by omega)

theorem searchFrom_isSome {m : Matcher} : ∀ {s : List Char} (i n : Nat),
    m (s.drop i) = some n → (searchFrom m s).isSome := by
  intro s
  induction s with
  | nil =>
    intro i n h
    rw [List.drop_nil] at h
    unfold searchFrom
    rw [h]
    rfl
  | cons c rest ih =>
    intro i n h
    unfold searchFrom
    cases hm : m (c :: rest) with
    | some t => rfl
    | none =>
      cases i with
      | zero => rw [List.drop_zero] at h; rw [h] at hm; exact absurd hm (by simp)
      | succ j => exact ih j n (by simpa using h)

/-- Any identifier-shaped prefix of the input is no longer than the match
the matcher reports there: the matcher's digit run is maximal and the
earlier pieces of any two decompositions coincide. -/
theorem idShape_le_match {s : List Char} {n : Nat} (hmatch : matchIdAt s = some n)
    {u r2 : List Char} (hu : IdShape u) (hequ : u ++ r2 = s) : u.length ≤ n := by
  obtain ⟨q, hqok, rfl⟩ := hu
  obtain ⟨p, r, hpok, hseq, hn, hhd⟩ := matchIdAt_parts hmatch
  obtain ⟨ha, hm, hb, hne, hds⟩ := hpok
  obtain ⟨ha', hm', hb', hne', hds'⟩ := hqok
  have E0 : q.flat ++ r2 = p.flat ++ r := by rw [hequ, hseq]
  have E : q.a ++ (q.m ++ (q.b ++ (q.ds ++ r2))) =
      p.a ++ (p.m ++ (p.b ++ (p.ds ++ r))) := by
    simpa [IdParts.flat, List.append_assoc] using E0
  have hlena : q.a.length = p.a.length := by
    rw [lowersTo_length ha', lowersTo_length ha]
  obtain ⟨-, E2⟩ := List.append_inj E hlena
  have hmE : q.m.length = p.m.length ∧ q.b ++ (q.ds ++ r2) = p.b ++ (p.ds ++ r) := by
    rcases hm' with hq0 | ⟨c', hq1, hc'⟩ <;> rcases hm with hp0 | ⟨c, hp1, hc⟩
    · rw [hq0, hp0] at E2 ⊢
      exact ⟨rfl, by simpa using E2⟩
    · exfalso
      rw [hq0, hp1] at E2
      obtain ⟨bc, bt, hbeq, hbc, -⟩ := lowersTo_cons hb'
      rw [hbeq] at E2
      have hhead : bc = c := by
        have := congrArg (fun l => l.head?) E2
        simpa using this
      simp only [isMChar, decide_eq_true_eq] at hc
      rw [hhead, hc] at hbc
      exact absurd hbc (by decide)
    · exfalso
      rw [hq1, hp0] at E2
      obtain ⟨bc, bt, hbeq, hbc, -⟩ := lowersTo_cons hb
      rw [hbeq] at E2
      have hhead : c' = bc := by
        have := congrArg (fun l => l.head?) E2
        simpa using this
      simp only [isMChar, decide_eq_true_eq] at hc'
      rw [← hhead, hc'] at hbc
      exact absurd hbc (by decide)
    · rw [hq1, hp1] at E2 ⊢
      obtain ⟨hc12, E3⟩ := List.append_inj (by simpa using E2 : [c'] ++ _ = [c] ++ _) rfl
      exact ⟨rfl, E3⟩
  obtain ⟨hlenm, E3⟩ := hmE
  have hlenb : q.b.length = p.b.length := by
    rw [lowersTo_length hb', lowersTo_length hb]
  obtain ⟨-, E4⟩ := List.append_inj E3 hlenb
  have hlends : q.ds.length ≤ p.ds.length := by
    by_contra hlt
    push_neg at hlt
    have hr : r = q.ds.drop p.ds.length ++ r2 := by
      have := congrArg (fun l => l.drop p.ds.length) E4
      simpa [List.drop_left, List.drop_append_of_le_length (Nat.le_of_lt hlt)]
        using this.symm
    have hnn : q.ds.drop p.ds.length ≠ [] := by
      simpa [List.length_drop] using by omega
    obtain ⟨c, t, hct⟩ := List.exists_cons_of_ne_nil hnn
    have hcd : c.isDigit = true := hds' c (List.drop_subset _ _ (hct ▸ List.mem_cons_self c t))
    rw [hr, hct] at hhd
    have : Char.isDigit c = false := hhd
    rw [hcd] at this
    exact absurd this (by simp)
  have hflatq : q.flat.length = q.a.length + q.m.length + q.b.length + q.ds.length := by
    simp [IdParts.flat]
    omega
  have hflatp : p.flat.length = p.a.length + p.m.length + p.b.length + p.ds.length := by
    simp [IdParts.flat]
    omega
  omega

theorem idShape_ne_nil {t : List Char} (h : IdShape t) : t ≠ [] := by
  obtain ⟨p, ⟨ha, -, -, -, -⟩, rfl⟩ := h
  obtain ⟨c, t2, haeq, -, -⟩ := lowersTo_cons ha
  simp [IdParts.flat, haeq]

/-- Claim C5: for every URL string containing a substring of the
case-insensitive identifier shape, `_parse_ochmo_id` returns the first
such matched substring (leftmost position, maximal extent there)
uppercased; with no such substring it returns `None`; being a total
function of the embedding it never throws. -/
theorem spec_C5 (url : String) :
    (parseOchmoId url = none ↔ ¬ ∃ i t r, IdShape t ∧ t ++ r = url.data.drop i)
    ∧ (∀ s, parseOchmoId url = some s →
        ∃ i t r, IdShape t ∧ t ++ r = url.data.drop i
          ∧ (∀ j u r2, IdShape u → u ++ r2 = url.data.drop j → i ≤ j)
          ∧ (∀ u r2, IdShape u → u ++ r2 = url.data.drop i → u.length ≤ t.length)
          ∧ s = String.mk (t.map Char.toUpper)) := by
  constructor
  · constructor
    · intro h hex
      obtain ⟨i, t, r, hsh, heq⟩ := hex
      have hsf : searchFrom matchIdAt url.data = none := by
        cases hs : searchFrom matchIdAt url.data with
        | none => rfl
        | some t2 => rw [parseOchmoId, hs] at h; exact absurd h (by simp)
      have hnone := searchFrom_none hsf i
      obtain ⟨q, hok, rfl⟩ := hsh
      obtain ⟨n, hn, -⟩ := matchIdAt_compl hok r
      rw [heq] at hn
      rw [hn] at hnone
      exact absurd hnone (by simp)
    · intro h
      cases hs : searchFrom matchIdAt url.data with
      | none => simp [parseOchmoId, hs]
      | some t =>
        exfalso
        obtain ⟨i, n, h1, -, -⟩ := searchFrom_some hs
        obtain ⟨p, r, hok, hseq, -, -⟩ := matchIdAt_parts h1
        exact h ⟨i, p.flat, r, ⟨p, hok, rfl⟩, hseq.symm⟩
  · intro s hsome
    cases hs : searchFrom matchIdAt url.data with
    | none => rw [parseOchmoId, hs] at hsome; exact absurd hsome (by simp)
    | some t0 =>
      rw [parseOchmoId, hs] at hsome
      have hsval : s = String.mk (t0.map Char.toUpper) := by simpa using hsome.symm
      obtain ⟨i, n, h1, h2, h3⟩ := searchFrom_some hs
      obtain ⟨p, r, hok, hseq, hn, hhd⟩ := matchIdAt_parts h1
      have ht0 : t0 = p.flat := by rw [h2, hseq, hn, List.take_left]
      refine ⟨i, p.flat, r, ⟨p, hok, rfl⟩, hseq.symm, ?_, ?_, by rw [hsval, ht0]⟩
      · intro j u r2 hu hequ
        by_contra hji
        push_neg at hji
        have hnone := h3 j hji
        obtain ⟨q, hqok, rfl⟩ := hu
        obtain ⟨n2, hn2, -⟩ := matchIdAt_compl hqok r2
        rw [hequ] at hn2
        rw [hn2] at hnone
        exact absurd hnone (by simp)
      · intro u r2 hu hequ
        have hle := idShape_le_match h1 hu hequ
        omega

def idUrlEx : String := "https://x/ochmo-mtb-123-crew-health-risk.pdf?v=1"

def idValEx : String := "OCHMO-MTB-123"

theorem spec_C5_witness :
    ∃ i t r, IdShape t ∧ t ++ r = idUrlEx.data.drop i
      ∧ (∀ j u r2, IdShape u → u ++ r2 = idUrlEx.data.drop j → i ≤ j)
      ∧ (∀ u r2, IdShape u → u ++ r2 = idUrlEx.data.drop i → u.length ≤ t.length)
      ∧ idValEx = String.mk (t.map Char.toUpper) :=
  (spec_C5 idUrlEx).2 idValEx (by decide)

/-! ## The standards matcher against the standards shape -/

theorem mopt_parts_sp {s : List Char} {n : Nat} (h : mopt pyIsSpace s = some n) :
    ∃ w r, s = w ++ r ∧ n = w.length ∧ optSp w := by
  rcases mopt_parts h with rfl | ⟨rfl, c, r, rfl, hc⟩
  · exact ⟨[], s, rfl, rfl, Or.inl rfl⟩
  · exact ⟨[c], r, rfl, rfl, Or.inr ⟨c, rfl, hc⟩⟩

theorem mopt_sp_compl {w : List Char} (hw : optSp w) {rest : List Char}
    (hrest : headNot pyIsSpace rest) : mopt pyIsSpace (w ++ rest) = some w.length := by
  rcases hw with rfl | ⟨c, rfl, hc⟩
  · cases rest with
    | nil => rfl
    | cons c2 t => exact mopt_compl0 _ hrest
  · exact mopt_compl1 _ hc

theorem headNot_sp_of_lowersTo {a w : List Char} (h : lowersTo a w) {x : Char}
    {xs : List Char} (hw : w = x :: xs) (hx : pyIsSpace x = false) (z : List Char) :
    headNot pyIsSpace (a ++ z) := by
  subst hw
  obtain ⟨c, t, rfl, hc, -⟩ := lowersTo_cons h
  exact space_not_of_toLower hc hx

theorem headNot_sp_of_digits {ds : List Char} (hne : ds ≠ [])
    (hds : ∀ c ∈ ds, c.isDigit = true) (z : List Char) :
    headNot pyIsSpace (ds ++ z) := by
  cases ds with
  | nil => exact absurd rfl hne
  | cons c t => exact digit_not_space (hds c (by simp))

theorem matchStdAt_parts {s : List Char} {n : Nat} (h : matchStdAt s = some n) :
    ∃ (p : StdParts) (r : List Char), p.ok ∧ s = p.flat ++ r ∧ n = p.flat.length := by
  unfold matchStdAt at h
  obtain ⟨n1, k1, q1, g1, rfl⟩ := mseq_parts h
  obtain ⟨a1, r1, rfl, rfl, ha1⟩ := mlit_parts q1
  rw [List.drop_left] at g1
  obtain ⟨n2, k2, q2, g2, rfl⟩ := mseq_parts g1
  obtain ⟨w1, r2, rfl, rfl, hw1⟩ := mopt_parts_sp q2
  rw [List.drop_left] at g2
  obtain ⟨n3, k3, q3, g3, rfl⟩ := mseq_parts g2
  obtain ⟨hy1, r3, rfl, rfl, hhy1⟩ := mlit_parts q3
  rw [List.drop_left] at g3
  obtain ⟨n4, k4, q4, g4, rfl⟩ := mseq_parts g3
  obtain ⟨w2, r4, rfl, rfl, hw2⟩ := mopt_parts_sp q4
  rw [List.drop_left] at g4
  obtain ⟨n5, k5, q5, g5, rfl⟩ := mseq_parts g4
  obtain ⟨a2, r5, rfl, rfl, ha2⟩ := mlit_parts q5
  rw [List.drop_left] at g5
  obtain ⟨n6, k6, q6, g6, rfl⟩ := mseq_parts g5
  obtain ⟨w3, r6, rfl, rfl, hw3⟩ := mopt_parts_sp q6
  rw [List.drop_left] at g6
  obtain ⟨n7, k7, q7, g7, rfl⟩ := mseq_parts g6
  obtain ⟨hy2, r7, rfl, rfl, hhy2⟩ := mlit_parts q7
  rw [List.drop_left] at g7
  obtain ⟨n8, k8, q8, g8, rfl⟩ := mseq_parts g7
  obtain ⟨w4, r8, rfl, rfl, hw4⟩ := mopt_parts_sp q8
  rw [List.drop_left] at g8
  obtain ⟨n9, k9, q9, g9, rfl⟩ := mseq_parts g8
  obtain ⟨ds, r9, rfl, rfl, hne, hds, -⟩ := mplus_parts q9
  rw [List.drop_left] at g9
  obtain ⟨n10, k10, q10, g10, rfl⟩ := mseq_parts g9
  obtain ⟨s1, r10, rfl, rfl, hs1⟩ := mchar_parts q10
  rw [List.drop_one, List.tail_cons] at g10
  obtain ⟨n11, k11, q11, g11, rfl⟩ := mseq_parts g10
  obtain ⟨a3, r11, rfl, rfl, ha3⟩ := mlit_parts q11
  rw [List.drop_left] at g11
  obtain ⟨n12, k12, q12, g12, rfl⟩ := mseq_parts g11
  obtain ⟨s2, r12, rfl, rfl, hs2⟩ := mchar_parts q12
  rw [List.drop_one, List.tail_cons] at g12
  obtain ⟨n13, k13, q13, g13, rfl⟩ := mseq_parts g12
  obtain ⟨d5, r13, rfl, rfl, hd5⟩ := mchar_parts q13
  rw [List.drop_one, List.tail_cons] at g13
  obtain ⟨n14, k14, q14, g14, rfl⟩ := mseq_parts g13
  obtain ⟨cm, r14, rfl, rfl, hcm⟩ := mlit_parts q14
  rw [List.drop_left] at g14
  obtain ⟨n15, k15, q15, g15, rfl⟩ := mseq_parts g14
  obtain ⟨w5, r15, rfl, rfl, hw5⟩ := mopt_parts_sp q15
  rw [List.drop_left] at g15
  obtain ⟨n16, k16, q16, g16, rfl⟩ := mseq_parts g15
  obtain ⟨a4, r16, rfl, rfl, ha4⟩ := mlit_parts q16
  rw [List.drop_left] at g16
  obtain ⟨n17, k17, q17, g17, rfl⟩ := mseq_parts g16
  obtain ⟨s3, r17, rfl, rfl, hs3⟩ := mchar_parts q17
  rw [List.drop_one, List.tail_cons] at g17
  obtain ⟨wc, r18, rfl, rfl, hwc⟩ := mchar_parts g17
  refine ⟨⟨a1, w1, hy1, w2, a2, w3, hy2, w4, ds, s1, a3, s2, d5, cm, w5, a4, s3, wc⟩,
    r18, ⟨ha1, hw1, hhy1, hw2, ha2, hw3, hhy2, hw4, hne, hds, hs1, ha3, hs2, hd5,
      hcm, hw5, ha4, hs3, hwc⟩, ?_, ?_⟩
  · simp [StdParts.flat, List.append_assoc]
  · simp [StdParts.flat, List.length_append]
    omega

theorem matchStdAt_compl {p : StdParts} (hok : p.ok) (r : List Char) :
    ∃ n, matchStdAt (p.flat ++ r) = some n := by
  obtain ⟨ha1, hw1, hhy1, hw2, ha2, hw3, hhy2, hw4, hne, hds, hs1, ha3, hs2, hd5,
    hcm, hw5, ha4, hs3, hwc⟩ := hok
  have e18 : mchar pyIsWord (p.wc :: r) = some 1 := mchar_compl r hwc
  have e17 : mseq (mchar pyIsSpace) (mchar pyIsWord) (p.s3 :: p.wc :: r) = some (1 + 1) :=
    mseq_compl (mchar_compl _ hs3) (by simpa using e18)
  have e16 : mseq (mlit revLC) (mseq (mchar pyIsSpace) (mchar pyIsWord))
      (p.a4 ++ (p.s3 :: p.wc :: r)) = some (p.a4.length + (1 + 1)) :=
    mseq_compl (mlit_compl _ ha4) (by rw [List.drop_left]; exact e17)
  have e15 : mseq (mopt pyIsSpace) (mseq (mlit revLC) (mseq (mchar pyIsSpace) (mchar pyIsWord)))
      (p.w5 ++ (p.a4 ++ (p.s3 :: p.wc :: r))) =
      some (p.w5.length + (p.a4.length + (1 + 1))) :=
    mseq_compl (mopt_sp_compl hw5 (headNot_sp_of_lowersTo ha4 rfl (by decide) _))
      (by rw [List.drop_left]; exact e16)
  have e14 : mseq (mlit commaLC) (mseq (mopt pyIsSpace) (mseq (mlit revLC)
      (mseq (mchar pyIsSpace) (mchar pyIsWord))))
      (p.cm ++ (p.w5 ++ (p.a4 ++ (p.s3 :: p.wc :: r)))) =
      some (p.cm.length + (p.w5.length + (p.a4.length + (1 + 1)))) :=
    mseq_compl (mlit_compl _ hcm) (by rw [List.drop_left]; exact e15)
  have e13 : mseq (mchar Char.isDigit) (mseq (mlit commaLC) (mseq (mopt pyIsSpace)
      (mseq (mlit revLC) (mseq (mchar pyIsSpace) (mchar pyIsWord)))))
      (p.d5 :: (p.cm ++ (p.w5 ++ (p.a4 ++ (p.s3 :: p.wc :: r))))) =
      some (1 + (p.cm.length + (p.w5.length + (p.a4.length + (1 + 1))))) :=
    mseq_compl (mchar_compl _ hd5) (by simpa using e14)
  have e12 : mseq (mchar pyIsSpace) (mseq (mchar Char.isDigit) (mseq (mlit commaLC)
      (mseq (mopt pyIsSpace) (mseq (mlit revLC) (mseq (mchar pyIsSpace) (mchar pyIsWord))))))
      (p.s2 :: p.d5 :: (p.cm ++ (p.w5 ++ (p.a4 ++ (p.s3 :: p.wc :: r))))) =
      some (1 + (1 + (p.cm.length + (p.w5.length + (p.a4.length + (1 + 1)))))) :=
    mseq_compl (mchar_compl _ hs2) (by simpa using e13)
  have e11 : mseq (mlit volumeLC) (mseq (mchar pyIsSpace) (mseq (mchar Char.isDigit)
      (mseq (mlit commaLC) (mseq (mopt pyIsSpace) (mseq (mlit revLC)
        (mseq (mchar pyIsSpace) (mchar pyIsWord)))))))
      (p.a3 ++ (p.s2 :: p.d5 :: (p.cm ++ (p.w5 ++ (p.a4 ++ (p.s3 :: p.wc :: r)))))) =
      some (p.a3.length + (1 + (1 + (p.cm.length + (p.w5.length + (p.a4.length + (1 + 1))))))) :=
    mseq_compl (mlit_compl _ ha3) (by rw [List.drop_left]; exact e12)
  have e10 : mseq (mchar pyIsSpace) (mseq (mlit volumeLC) (mseq (mchar pyIsSpace)
      (mseq (mchar Char.isDigit) (mseq (mlit commaLC) (mseq (mopt pyIsSpace)
        (mseq (mlit revLC) (mseq (mchar pyIsSpace) (mchar pyIsWord))))))))
      (p.s1 :: (p.a3 ++ (p.s2 :: p.d5 :: (p.cm ++ (p.w5 ++ (p.a4 ++ (p.s3 :: p.wc :: r))))))) =
      some (1 + (p.a3.length + (1 + (1 + (p.cm.length + (p.w5.length + (p.a4.length + (1 + 1)))))))) :=
    mseq_compl (mchar_compl _ hs1) (by simpa using e11)
  have e9 : mplus Char.isDigit
      (p.ds ++ (p.s1 :: (p.a3 ++ (p.s2 :: p.d5 :: (p.cm ++ (p.w5 ++ (p.a4 ++ (p.s3 :: p.wc :: r)))))))) =
      some p.ds.length :=
    mplus_compl hne hds (space_not_digit hs1)
  have e9x := mseq_compl e9 (by rw [List.drop_left]; exact e10)
  have e8 := mseq_compl
    (mopt_sp_compl hw4 (headNot_sp_of_digits hne hds _))
    (by rw [List.drop_left]; exact e9x)
  have e7 := mseq_compl (mlit_compl _ hhy2) (by rw [List.drop_left]; exact e8)
  have e6 := mseq_compl
    (mopt_sp_compl hw3 (headNot_sp_of_lowersTo hhy2 rfl (by decide) _))
    (by rw [List.drop_left]; exact e7)
  have e5 := mseq_compl (mlit_compl _ ha2) (by rw [List.drop_left]; exact e6)
  have e4 := mseq_compl
    (mopt_sp_compl hw2 (headNot_sp_of_lowersTo ha2 rfl (by decide) _))
    (by rw [List.drop_left]; exact e5)
  have e3 := mseq_compl (mlit_compl _ hhy1) (by rw [List.drop_left]; exact e4)
  have e2 := mseq_compl
    (mopt_sp_compl hw1 (headNot_sp_of_lowersTo hhy1 rfl (by decide) _))
    (by rw [List.drop_left]; exact e3)
  have e1 := mseq_compl (mlit_compl (p := nasaLC) _ ha1) (by rw [List.drop_left]; exact e2)
  have hassoc : p.flat ++ r =
      p.a1 ++ (p.w1 ++ (p.hy1 ++ (p.w2 ++ (p.a2 ++ (p.w3 ++ (p.hy2 ++ (p.w4 ++
        (p.ds ++ (p.s1 :: (p.a3 ++ (p.s2 :: p.d5 :: (p.cm ++ (p.w5 ++ (p.a4 ++
          (p.s3 :: p.wc :: r))))))))))))))) := by
    simp [StdParts.flat, List.append_assoc]
  rw [hassoc]
  exact ⟨_, e1⟩

/-! ## `re.finditer` lemmas -/

theorem findIterF_mem {m : Matcher} : ∀ (fuel : Nat) (s : List Char),
    ∀ t ∈ findIterF m fuel s, ∃ s2 n, m s2 = some n ∧ t = s2.take n := by
  intro fuel
  induction fuel with
  | zero =>
    intro s t ht
    cases s with
    | nil =>
      cases hm : m [] with
      | none => simp [findIterF, hm] at ht
      | some k =>
        simp only [findIterF, hm, List.mem_singleton] at ht
        exact ⟨[], k, hm, by simp [ht]⟩
    | cons c rest => simp [findIterF] at ht
  | succ fuel ih =>
    intro s t ht
    cases s with
    | nil =>
      cases hm : m [] with
      | none => simp [findIterF, hm] at ht
      | some k =>
        simp only [findIterF, hm, List.mem_singleton] at ht
        exact ⟨[], k, hm, by simp [ht]⟩
    | cons c rest =>
      cases hm : m (c :: rest) with
      | none =>
        rw [findIterF, hm] at ht
        exact ih rest t ht
      | some k =>
        cases k with
        | zero =>
          rw [findIterF, hm] at ht
          rcases List.mem_cons.mp ht with rfl | ht2
          · exact ⟨c :: rest, 0, hm, by simp⟩
          · exact ih rest t ht2
        | succ k2 =>
          rw [findIterF, hm] at ht
          rcases List.mem_cons.mp ht with rfl | ht2
          · exact ⟨c :: rest, k2 + 1, hm, rfl⟩
          · exact ih (rest.drop k2) t ht2

theorem findIter_mem {m : Matcher} : ∀ (s : List Char), ∀ t ∈ findIter m s,
    ∃ s2 n, m s2 = some n ∧ t = s2.take n :=
  fun s => findIterF_mem s.length s

theorem matchStdAt_ws_none {c : Char} (rest : List Char) (hc : pyIsSpace c = true) :
    matchStdAt (c :: rest) = none := by
  have hcl := pyIsSpace_toLower_self hc
  have hne : ¬ c.toLower = 'n' := by
    rw [hcl]
    intro heq
    rw [heq] at hc
    exact absurd hc (by decide)
  have h1 : mlit nasaLC (c :: rest) = none := by
    simp [mlit, nasaLC, stripCI, hne]
  simp [matchStdAt, mseq, h1]

theorem matchReqAt_ws_none {c : Char} (rest : List Char) (hc : pyIsSpace c = true) :
    matchReqAt (c :: rest) = none := by
  have hcl := pyIsSpace_toLower_self hc
  have hne : ¬ c.toLower = '[' := by
    rw [hcl]
    intro heq
    rw [heq] at hc
    exact absurd hc (by decide)
  have h1 : mlit lbrLC (c :: rest) = none := by
    simp [mlit, lbrLC, stripCI, hne]
  simp [matchReqAt, mseq, h1]

theorem findIterF_ws_none {m : Matcher} (hnil : m [] = none)
    (hws : ∀ (c : Char) (rest : List Char), pyIsSpace c = true → m (c :: rest) = none) :
    ∀ (fuel : Nat) (s : List Char), (∀ c ∈ s, pyIsSpace c = true) →
      findIterF m fuel s = [] := by
  intro fuel
  induction fuel with
  | zero =>
    intro s hall
    cases s with
    | nil => simp [findIterF, hnil]
    | cons c rest => simp [findIterF]
  | succ fuel ih =>
    intro s hall
    cases s with
    | nil => simp [findIterF, hnil]
    | cons c rest =>
      rw [findIterF, hws c rest (hall c (by simp))]
      exact ih rest fun x hx => hall x (by simp [hx])

theorem findIter_ws_std (s : List Char) (hall : ∀ c ∈ s, pyIsSpace c = true) :
    findIter matchStdAt s = [] :=
  findIterF_ws_none (by decide) (fun c rest hc => matchStdAt_ws_none rest hc) s.length s hall

theorem findIter_ws_req (s : List Char) (hall : ∀ c ∈ s, pyIsSpace c = true) :
    findIter matchReqAt s = [] :=
  findIterF_ws_none (by decide) (fun c rest hc => matchReqAt_ws_none rest hc) s.length s hall

/-! ## Claims C2 and C7: the reference scans -/

/-- The single hyphen character, for the claim-side pattern. -/
def isHyChar (c : Char) : Bool := c = '-'

/-- The standards pattern as claim C2 words it (refinement-side
definition, written from the claim, not from the code): `NASA` +
optional hyphen + `STD` + optional hyphen + digits + ... with flexible
whitespace placement around the hyphen positions — in this reading the
hyphens themselves are optional, so a citation with spaces in place of
the hyphens is accepted. The code's pattern is `matchStdAt`, where the
hyphens are mandatory. -/
def claimStdAt : Matcher :=
  mseq (mlit nasaLC) (mseq (mopt pyIsSpace) (mseq (mopt isHyChar) (mseq (mopt pyIsSpace)
    (mseq (mlit stdLC) (mseq (mopt pyIsSpace) (mseq (mopt isHyChar) (mseq (mopt pyIsSpace)
      (mseq (mplus Char.isDigit) (mseq (mchar pyIsSpace) (mseq (mlit volumeLC)
        (mseq (mchar pyIsSpace) (mseq (mchar Char.isDigit) (mseq (mlit commaLC)
          (mseq (mopt pyIsSpace) (mseq (mlit revLC)
            (mseq (mchar pyIsSpace) (mchar pyIsWord)))))))))))))))))

def spacedCiteEx : String := "NASA STD 3001 Volume 2, Rev A"

/-- Claim C2 counterexample: the text consists of exactly one citation
written with spaces in place of the hyphens; the claim's own pattern
accepts it at position 0, yet the code's standards scan appends
nothing, because the code's hyphens are mandatory. -/
theorem spec_C2_counterexample :
    (claimStdAt spacedCiteEx.data).isSome = true ∧ pdfStandards spacedCiteEx = [] := by
  constructor
  · decide
  · decide

/-- Claim C2 (amended): the standards scan collects, in order of
appearance with duplicates kept, every non-overlapping match of the
standards shape — in which both hyphens are mandatory, with optional
whitespace next to them — each normalized by collapsing every
space-hyphen pair into a hyphen; every collected match is of the shape,
and wherever a string of the shape starts the matcher matches. -/
theorem spec_C2 (txt : String) :
    pdfStandards txt = (findIter matchStdAt txt.data).map (fun t => String.mk (collapseSpHy t))
    ∧ (∀ t ∈ findIter matchStdAt txt.data, StdShape t)
    ∧ (∀ t r, StdShape t → (matchStdAt (t ++ r)).isSome = true) := by
  refine ⟨rfl, ?_, ?_⟩
  · intro t ht
    obtain ⟨s2, n, hm, rfl⟩ := findIter_mem _ t ht
    obtain ⟨p, r, hok, hseq, hn⟩ := matchStdAt_parts hm
    rw [hseq, hn, List.take_left]
    exact ⟨p, hok, rfl⟩
  · intro t r hsh
    obtain ⟨p, hok, rfl⟩ := hsh
    obtain ⟨n, hn⟩ := matchStdAt_compl hok r
    simp [hn]

def stdTxtEx : String := "see NASA -STD -3001 Volume 2, Rev A now"

def stdTokEx : String := "NASA -STD -3001 Volume 2, Rev A"

def stdOutEx : String := "NASA-STD-3001 Volume 2, Rev A"

theorem spec_C2_witness :
    StdShape stdTokEx.data ∧ (matchStdAt (stdTokEx.data ++ [])).isSome = true ∧
    pdfStandards stdTxtEx = [stdOutEx] := by
  have h := spec_C2 stdTxtEx
  have hmem : stdTokEx.data ∈ findIter matchStdAt stdTxtEx.data := by decide
  have hsh : StdShape stdTokEx.data := h.2.1 stdTokEx.data hmem
  refine ⟨hsh, h.2.2 stdTokEx.data [] hsh, ?_⟩
  rw [h.1]
  decide

/-- Claim C7: both outputs of the reference extraction have exactly one
element per non-overlapping match of the respective pattern, and a
whitespace-only (in particular empty) text yields two empty lists. -/
theorem spec_C7 (txt : String) :
    (pdfStandards txt).length = (findIter matchStdAt txt.data).length
    ∧ (pdfReqs txt).length = (findIter matchReqAt txt.data).length
    ∧ ((∀ c ∈ txt.data, pyIsSpace c = true) →
        pdfStandards txt = [] ∧ pdfReqs txt = []) := by
  refine ⟨by simp [pdfStandards, pdfStandardsL], by simp [pdfReqs, pdfReqsL], ?_⟩
  intro hws
  constructor
  · simp [pdfStandards, pdfStandardsL, findIter_ws_std _ hws]
  · simp [pdfReqs, pdfReqsL, findIter_ws_req _ hws]

def wsTxtEx : String := " "

theorem spec_C7_witness :
    pdfStandards wsTxtEx = [] ∧ pdfReqs wsTxtEx = [] :=
  (spec_C7 wsTxtEx).2.2 (by decide)

/-! ## The per-document pipeline: parse normal form -/

/-- What one `parse` of a fresh report computes, by cases on the two
collaborators: identifier and title from the URL alone, reference lists
from the page text only when fetch yields nonempty bytes and text
extraction succeeds, and the byte cache from the fetch. -/
theorem parse_init_cases (fetch : String → Option (List Nat)) (ext : List Nat → Option String)
    (url : String) :
    PdfReport.parse fetch ext (initReport url) =
      { url := url, ochmo_id := parseOchmoId url,
        title := deriveTitle url (parseOchmoId url),
        technical_requirements_docs :=
          match fetch url with
          | none => []
          | some b =>
            if b.isEmpty then []
            else
              match ext b with
              | none => []
              | some txt => pdfStandardsL txt.data,
        technical_requirements :=
          match fetch url with
          | none => []
          | some b =>
            if b.isEmpty then []
            else
              match ext b with
              | none => []
              | some txt => pdfReqsL txt.data,
        pdf_bytes := fetch url } := by
  cases hf : fetch url with
  | none =>
    by_cases hid : pyTruthy (parseOchmoId url) <;>
      simp [PdfReport.parse, fetchContent, stepTitle, stepId, stepRefs, initReport,
        deriveTitle, hf, hid]
  | some b =>
    by_cases hid : pyTruthy (parseOchmoId url) <;> by_cases hb : b.isEmpty <;>
      cases he : ext b <;>
        simp [PdfReport.parse, fetchContent, stepTitle, stepId, stepRefs, initReport,
          deriveTitle, hf, hid, hb, he]

theorem parseOchmoId_ne_empty {url : String} {s : String}
    (h : parseOchmoId url = some s) : s ≠ "" := by
  unfold parseOchmoId at h
  cases hs : searchFrom matchIdAt url.data with
  | none => rw [hs] at h; exact absurd h (by simp)
  | some t =>
    rw [hs] at h
    have hsv : s = String.mk (t.map Char.toUpper) := by simpa using h.symm
    obtain ⟨i, n, h1, h2, -⟩ := searchFrom_some hs
    obtain ⟨p, r, hok, hseq, hn, -⟩ := matchIdAt_parts h1
    have ht : t = p.flat := by rw [h2, hseq, hn, List.take_left]
    have hne := idShape_ne_nil ⟨p, hok, rfl⟩
    rw [hsv, ht]
    intro hcon
    have : (p.flat.map Char.toUpper) = [] := by
      have := congrArg String.data hcon
      simpa using this
    exact hne (by simpa using this)

theorem pyTruthy_some_of_ne {s : String} (h : s ≠ "") : pyTruthy (some s) = true := by
  have : s.isEmpty = false := by
    cases hse : s.isEmpty with
    | false => rfl
    | true => exact absurd ((String.isEmpty_iff s).mp hse) h
  simp [pyTruthy, this]

theorem pyTruthy_parseOchmoId (url : String) :
    pyTruthy (parseOchmoId url) = (parseOchmoId url).isSome := by
  cases hs : parseOchmoId url with
  | none => rfl
  | some s => simp [pyTruthy_some_of_ne (parseOchmoId_ne_empty hs)]

/-! ## Claim C1: the filtering law of scrape_reports -/

theorem scrapeLoop_eq (fetch : String → Option (List Nat)) (ext : List Nat → Option String) :
    ∀ (urls : List String) (acc : List ReportState),
      scrapeLoop fetch ext urls acc =
        acc ++ (urls.map (fun u => PdfReport.parse fetch ext (initReport u))).filter
          (fun r => pyTruthy r.ochmo_id) := by
  intro urls
  induction urls with
  | nil => intro acc; simp [scrapeLoop]
  | cons u rest ih =>
    intro acc
    by_cases hp : pyTruthy (PdfReport.parse fetch ext (initReport u)).ochmo_id <;>
      simp [scrapeLoop, hp, ih, List.filter_cons]

/-- Claim C1: the output of `scrape_reports` is exactly the records of the
truncated discovery list, each fully parsed, filtered to those whose
identifier is present, in discovery order. (The code tests Python
truthiness; an extracted identifier is never the empty string, so
truthiness coincides with presence.) -/
theorem spec_C1 (fetch : String → Option (List Nat)) (ext : List Nat → Option String)
    (urls : List String) (limit : Option Int) :
    scrape_reports fetch ext urls limit =
      ((pySliceTo limit urls).map (fun u => PdfReport.parse fetch ext (initReport u))).filter
        (fun r => r.ochmo_id.isSome) := by
  unfold scrape_reports
  rw [scrapeLoop_eq]
  rw [List.nil_append]
  apply List.filter_congr
  intro r hr
  simp only [List.mem_map] at hr
  obtain ⟨u, -, rfl⟩ := hr
  rw [parse_init_cases]
  exact pyTruthy_parseOchmoId u

/-! ## Claim C8 and claim C10: the limit law of Python slicing -/

/-- Claim C8: a nonnegative limit `k` truncates the discovery list to its
first `min k n` entries in order, and an absent limit keeps all of it;
`scrape_reports` parses exactly the entries of `pySliceTo limit urls`. -/
theorem spec_C8 (urls : List String) (k : Int) (hk : 0 ≤ k) :
    pySliceTo (some k) urls = urls.take k.toNat
    ∧ (pySliceTo (some k) urls).length = min k.toNat urls.length
    ∧ pySliceTo (none : Option Int) urls = urls := by
  refine ⟨by simp [pySliceTo, hk], ?_, rfl⟩
  simp [pySliceTo, hk, List.length_take]

def uAEx : String := "https://x/ochmo-tb-1-a.pdf?x"

def uBEx : String := "https://x/ochmo-tb-2-b.pdf?x"

def uCEx : String := "https://x/plain.pdf?x"

def urlsEx : List String := [uAEx, uBEx, uCEx]

theorem spec_C8_witness :
    pySliceTo (some 2) urlsEx = urlsEx.take (Int.toNat 2)
    ∧ (pySliceTo (some 2) urlsEx).length = min (Int.toNat 2) urlsEx.length
    ∧ pySliceTo (none : Option Int) urlsEx = urlsEx :=
  spec_C8 urlsEx 2 (by decide)

/-- Claim C10: a negative limit `-k` is Python negative-index slicing:
the first `n - k` discovered URLs are processed (none when `k ≥ n`), and
`-1` in particular drops exactly the last discovered URL. -/
theorem spec_C10 (urls : List String) (k : Nat) (hk : 0 < k) :
    pySliceTo (some (-(k : Int))) urls = urls.take (urls.length - k)
    ∧ pySliceTo (some (-1 : Int)) urls = urls.dropLast := by
  constructor
  · have hneg : ¬ (0 ≤ -(k : Int)) := by omega
    simp [pySliceTo, hneg]
  · have hneg : ¬ (0 ≤ (-1 : Int)) := by omega
    rw [List.dropLast_eq_take]
    simp [pySliceTo, hneg]

theorem spec_C10_witness :
    pySliceTo (some (-((1 : Nat) : Int))) urlsEx = urlsEx.take (urlsEx.length - 1)
    ∧ pySliceTo (some (-1 : Int)) urlsEx = urlsEx.dropLast :=
  spec_C10 urlsEx 1 (by decide)

/-! ## Claim C4: failure isolation keeps URL-derived metadata -/

/-- Claim C4: when the fetch fails, or the fetched bytes yield no page
text, the parsed record keeps the identifier and title derived from the
URL, its two reference lists are empty, and — the identifier being
present — the record still appears in the output of `scrape_reports`. -/
theorem spec_C4 (fetch : String → Option (List Nat)) (ext : List Nat → Option String)
    (url : String)
    (hfail : fetch url = none ∨ ∃ b, fetch url = some b ∧ b ≠ [] ∧ ext b = none) :
    (PdfReport.parse fetch ext (initReport url)).ochmo_id = parseOchmoId url
    ∧ (PdfReport.parse fetch ext (initReport url)).title = deriveTitle url (parseOchmoId url)
    ∧ (PdfReport.parse fetch ext (initReport url)).technical_requirements_docs = []
    ∧ (PdfReport.parse fetch ext (initReport url)).technical_requirements = []
    ∧ ((parseOchmoId url).isSome = true →
        PdfReport.parse fetch ext (initReport url) ∈ scrape_reports fetch ext [url] none) := by
  refine ⟨by rw [parse_init_cases], by rw [parse_init_cases], ?_, ?_, ?_⟩
  · rw [parse_init_cases]
    rcases hfail with hf | ⟨b, hf, hb, he⟩
    · simp [hf]
    · have hbe : b.isEmpty = false := by simpa using hb
      simp [hf, he, hbe]
  · rw [parse_init_cases]
    rcases hfail with hf | ⟨b, hf, hb, he⟩
    · simp [hf]
    · have hbe : b.isEmpty = false := by simpa using hb
      simp [hf, he, hbe]
  · intro hsome
    have htr : pyTruthy (PdfReport.parse fetch ext (initReport url)).ochmo_id = true := by
      rw [parse_init_cases]
      rw [pyTruthy_parseOchmoId]
      exact hsome
    unfold scrape_reports pySliceTo
    rw [scrapeLoop_eq]
    simp [htr]

/-- A fetch collaborator whose every request fails (`RetrievalError`). -/
def fetchNone : String → Option (List Nat) := fun _ => none

/-- A text-extraction collaborator that always fails (`DocumentParseError`). -/
def extNone : List Nat → Option String := fun _ => none

theorem spec_C4_witness :
    (PdfReport.parse fetchNone extNone (initReport idUrlEx)).ochmo_id = parseOchmoId idUrlEx
    ∧ (PdfReport.parse fetchNone extNone (initReport idUrlEx)).technical_requirements_docs = []
    ∧ (PdfReport.parse fetchNone extNone (initReport idUrlEx)).technical_requirements = []
    ∧ PdfReport.parse fetchNone extNone (initReport idUrlEx) ∈
        scrape_reports fetchNone extNone [idUrlEx] none := by
  have h := spec_C4 fetchNone extNone idUrlEx (Or.inl rfl)
  exact ⟨h.1, h.2.2.1, h.2.2.2.1, h.2.2.2.2 (by decide)⟩

/-! ## Claim C6: the title depends on the identifier -/

/-- Claim C6: after a parse the title is absent whenever the identifier
is, and the title derivation returns `None` outright for an absent
identifier (the early return of `_parse_title`). -/
theorem spec_C6 (fetch : String → Option (List Nat)) (ext : List Nat → Option String)
    (url : String) :
    ((PdfReport.parse fetch ext (initReport url)).ochmo_id = none →
      (PdfReport.parse fetch ext (initReport url)).title = none)
    ∧ ∀ idv : Option String, idv = none → deriveTitle url idv = none := by
  constructor
  · intro h
    rw [parse_init_cases] at h ⊢
    simp only at h
    simp [deriveTitle, h, pyTruthy]
  · rintro idv rfl
    simp [deriveTitle, pyTruthy]

def noIdUrlEx : String := "https://x/plain.pdf?v"

theorem spec_C6_witness :
    (PdfReport.parse fetchNone extNone (initReport noIdUrlEx)).title = none ∧
    deriveTitle noIdUrlEx none = none := by
  have h := spec_C6 fetchNone extNone noIdUrlEx
  exact ⟨h.1 (by decide), h.2 none rfl⟩

/-! ## Claim C3: parse is not idempotent on the reference lists -/

def dupUrlEx : String := "https://x/ochmo-tb-7-a.pdf?d"

def citeTxtEx : String := "x NASA-STD-3001 Volume 2, Rev A [V2 104]"

/-- A fetch collaborator returning one byte of content for every URL. -/
def fetchOne : String → Option (List Nat) := fun _ => some [1]

/-- A text-extraction collaborator returning a page text with one
standards citation and one requirement code. -/
def extStd : List Nat → Option String := fun _ => some citeTxtEx

/-- Claim C3 counterexample: parsing the same report object twice with
the same URL and the same bytes is not the identity — the second parse
appends the reference matches to the lists again, so the record after
the second parse differs from the record after the first. -/
theorem spec_C3_counterexample :
    PdfReport.parse fetchOne extStd (PdfReport.parse fetchOne extStd (initReport dupUrlEx)) ≠
      PdfReport.parse fetchOne extStd (initReport dupUrlEx) := by decide

/-- Claim C3 (amended): a second parse with the same collaborators
recomputes the identifier and title to the same values and reuses the
cached bytes, but appends the reference matches to the lists again: the
record after the second parse equals the first-parse record with both
reference lists self-appended. In particular the two records are
bit-identical exactly when the first parse extracted no references. -/
theorem spec_C3_amended (fetch : String → Option (List Nat)) (ext : List Nat → Option String)
    (url : String) :
    PdfReport.parse fetch ext (PdfReport.parse fetch ext (initReport url)) =
      { PdfReport.parse fetch ext (initReport url) with
        technical_requirements_docs :=
          (PdfReport.parse fetch ext (initReport url)).technical_requirements_docs ++
            (PdfReport.parse fetch ext (initReport url)).technical_requirements_docs,
        technical_requirements :=
          (PdfReport.parse fetch ext (initReport url)).technical_requirements ++
            (PdfReport.parse fetch ext (initReport url)).technical_requirements } := by
  rw [parse_init_cases fetch ext url]
  cases hf : fetch url with
  | none =>
    by_cases hid : pyTruthy (parseOchmoId url) <;>
      simp [PdfReport.parse, fetchContent, stepTitle, stepId, stepRefs, deriveTitle, hf, hid]
  | some b =>
    by_cases hid : pyTruthy (parseOchmoId url) <;> by_cases hb : b.isEmpty <;>
      cases he : ext b <;>
        simp [PdfReport.parse, fetchContent, stepTitle, stepId, stepRefs, deriveTitle,
          hf, hid, hb, he]

/-! ## Claim C9: discovery acceptance and the identifier filter -/

theorem linkSearchB_exists : ∀ {s : List Char}, linkSearchB s = true →
    ∃ i, matchLinkAt (s.drop i) = true := by
  intro s
  induction s with
  | nil => intro h; simp [linkSearchB] at h
  | cons c r ih =>
    intro h
    rw [linkSearchB, Bool.or_eq_true] at h
    rcases h with h | h
    · exact ⟨0, h⟩
    · obtain ⟨i, hi⟩ := ih h
      exact ⟨i + 1, by simpa using hi⟩

theorem drop_takeWhile_length (p : Char → Bool) : ∀ (r : List Char),
    r.drop (r.takeWhile p).length = r.dropWhile p := by
  intro r
  induction r with
  | nil => rfl
  | cons c t ih =>
    by_cases hc : p c <;> simp [List.takeWhile_cons, List.dropWhile_cons, hc, ih]

theorem tbDigitsRest_parts {s r3 : List Char} (h : tbDigitsRest s = some r3) :
    ∃ b ds, lowersTo b tbLC ∧ ds ≠ [] ∧ (∀ c ∈ ds, c.isDigit = true) ∧
      s = b ++ (ds ++ r3) := by
  unfold tbDigitsRest at h
  cases hb : stripCI tbLC s with
  | none => rw [hb] at h; exact absurd h (by simp)
  | some r =>
    rw [hb] at h
    dsimp only at h
    obtain ⟨b, rfl, hbl⟩ := stripCI_sound _ _ _ hb
    by_cases hds : (r.takeWhile Char.isDigit).isEmpty
    · rw [if_pos hds] at h
      exact absurd h (by simp)
    · rw [if_neg hds] at h
      have hr3 : r3 = r.drop (r.takeWhile Char.isDigit).length := by simpa using h.symm
      refine ⟨b, r.takeWhile Char.isDigit, hbl, by simpa using hds,
        mem_takeWhile_sat Char.isDigit r, ?_⟩
      rw [hr3, drop_takeWhile_length, List.takeWhile_append_dropWhile]

theorem matchLinkAt_id {s : List Char} (h : matchLinkAt s = true) :
    ∃ (p : IdParts) (rest : List Char), p.ok ∧ s = p.flat ++ rest := by
  unfold matchLinkAt at h
  cases hs : stripCI ochmoLC s with
  | none => rw [hs] at h; exact absurd h (by simp)
  | some r1 =>
    rw [hs] at h
    obtain ⟨a, rfl, ha⟩ := stripCI_sound _ _ _ hs
    cases r1 with
    | nil => simp at h
    | cons c r2 =>
      dsimp only at h
      by_cases hc : isMChar c
      · rw [if_pos hc] at h
        cases ht : tbDigitsRest r2 with
        | none => rw [ht] at h; simp at h
        | some r3 =>
          obtain ⟨b, ds, hbl, hne, hds, rfl⟩ := tbDigitsRest_parts ht
          refine ⟨⟨a, [c], b, ds⟩, r3, ⟨ha, Or.inr ⟨c, rfl, hc⟩, hbl, hne, hds⟩, ?_⟩
          simp [IdParts.flat]
      · rw [if_neg hc] at h
        cases ht : tbDigitsRest (c :: r2) with
        | none => rw [ht] at h; simp at h
        | some r3 =>
          obtain ⟨b, ds, hbl, hne, hds, heq⟩ := tbDigitsRest_parts ht
          refine ⟨⟨a, [], b, ds⟩, r3, ⟨ha, Or.inl rfl, hbl, hne, hds⟩, ?_⟩
          simp [IdParts.flat, heq]

/-- Claim C9 (amended): every href the discovery pattern accepts itself
contains an identifier-shaped substring, so the identifier derivation
succeeds on the raw href. The claim's stronger statement — that the
*resolved* URL still carries the identifier, so the filter of
`scrape_reports` drops no discovered URL — fails, because relative
resolution against the base URL removes dot segments and with them
possibly the matched segment (see the counterexample). -/
theorem spec_C9 (href : String) (h : linkAccepts href = true) :
    (parseOchmoId href).isSome = true := by
  obtain ⟨i, hi⟩ := linkSearchB_exists (by simpa [linkAccepts] using h)
  obtain ⟨p, rest, hok, hseq⟩ := matchLinkAt_id hi
  obtain ⟨n, hn, -⟩ := matchIdAt_compl hok rest
  rw [← hseq] at hn
  have hsome := searchFrom_isSome i n hn
  unfold parseOchmoId
  cases hsf : searchFrom matchIdAt href.data with
  | none => rw [hsf] at hsome; exact absurd hsome (by simp)
  | some t => simp

def hrefGoodEx : String := "ochmo-mtb-7-x.pdf?d"

theorem spec_C9_witness : (parseOchmoId hrefGoodEx).isSome = true :=
  spec_C9 hrefGoodEx (by decide)

def baseEx : String := "https://a/b/"

def hrefDotEx : String := "ochmo-tb-5/../x.pdf?v=1"

def joinedEx : String := "https://a/b/x.pdf?v=1"

/-- Claim C9 counterexample: the href is accepted by the discovery
pattern, but resolving it against the listing URL collapses the dot
segment and removes the identifier-bearing path segment; the record
built from the resolved URL has no identifier, and `scrape_reports`
drops it — the identifier filter does drop a discovered URL. -/
theorem spec_C9_counterexample :
    linkAccepts hrefDotEx = true
    ∧ discoverModel baseEx [hrefDotEx] = [joinedEx]
    ∧ parseOchmoId joinedEx = none
    ∧ scrape_reports fetchNone extNone (discoverModel baseEx [hrefDotEx]) none = [] := by
  refine ⟨by decide, by decide, by decide, by decide⟩

end Ochmo


